import Mathlib

/-!
Verification development for the WASM text-processing kernel
(src/text-processor-wasm/src/lib.rs): tokenizer, word cache, co-occurrence
graph builder and stats reporter, embedded shallowly and checked against the
design document.

Modelling conventions:
* a Rust String is modelled as its character sequence (List Char); Rust's
  byte-lexicographic String comparison agrees with code-point-lexicographic
  comparison of the character sequences, and String::len is modelled exactly,
  as the sum of the characters' UTF-8 sizes;
* Rust's Unicode-aware char::is_alphabetic / char::is_whitespace /
  to_lowercase are modelled by Lean's Char.isAlpha / Char.isWhitespace /
  Char.toLower, which agree with them on the ASCII range;
* HashMap<String, _> is modelled as an association list with in-place update
  of the first (unique) matching key; its unspecified iteration order becomes
  first-insertion order, on which no verified statement depends;
* u32 / usize arithmetic is modelled on Nat (the counts involved are bounded
  by the input size, far below any wrap-around);
* js_sys timing values (processingTime) and console logging are effects
  outside the data contract and are not modelled.
-/

namespace TextProc

/-- Character-sequence representation of a Rust String. -/
abbrev Word := List Char

/-- Mirrors struct WordMetadata of the source. -/
structure WordMetadata where
  word : Word
  count : Nat
  sentences : List Nat
  word_indices : List Nat
  deriving DecidableEq, Repr

/-- Mirrors struct GraphNode of the source. -/
structure GraphNode where
  word : Word
  count : Nat
  sentences : List Nat
  word_indices : List Nat
  children : List Word
  parents : List Word
  is_root : Bool
  is_end : Bool
  deriving DecidableEq, Repr

/-- Mirrors struct GraphLink of the source. -/
structure GraphLink where
  source : Word
  target : Word
  weight : Nat
  deriving DecidableEq, Repr

/-- Mirrors struct GraphData of the source. -/
structure GraphData where
  nodes : List GraphNode
  links : List GraphLink
  total_words : Nat
  unique_words : Nat
  deriving DecidableEq, Repr

/-- Mirrors struct TextProcessor. The stop-word set is fixed by the constructor and
never mutated, so it is modelled as the global constant stop_words rather than
as a field. -/
structure TextProcessor where
  word_cache : List WordMetadata
  generation_count : Nat
  deriving DecidableEq, Repr

/-- Mirrors the stop-word list built in TextProcessor::new. -/
def stop_words : List Word :=
  (["the", "a", "an", "and", "or", "but", "in", "on", "at", "to", "for", "of", "with", "by",
    "from", "as", "is", "was", "are", "were", "be", "been", "being", "have", "has", "had",
    "do", "does", "did", "will", "would", "could", "should", "may", "might", "must", "shall",
    "this", "that", "these", "those", "i", "you", "he", "she", "it", "we", "they", "me",
    "him", "her", "us", "them", "my", "your", "his", "their", "our"]).map String.data

/-- Mirrors the character normalization step of tokenize_sentence: a character that
is neither alphabetic nor whitespace is replaced by a space. -/
def normalizeChar (c : Char) : Char :=
  if c.isAlpha || c.isWhitespace then c else ' '

/-- Splitting a character sequence at every separator character, keeping the
fragments between separators, empty fragments included; models Rust
str::split with a one-character pattern when p tests for that character, and
together with an empty-fragment filter models str::split_whitespace when p is
the whitespace test. -/
def splitOnPred (p : Char → Bool) : List Char → List (List Char)
  | [] => [[]]
  | c :: cs =>
    if p c then [] :: splitOnPred p cs
    else
      match splitOnPred p cs with
      | [] => [[c]]
      | w :: ws => (c :: w) :: ws

/-- Mirrors TextProcessor::tokenize_sentence: lowercase the string, replace each
character that is neither alphabetic nor whitespace by a space, split on
whitespace and drop empty fragments (split_whitespace already drops them; the
source's extra non-empty filter is modelled by the same single filter). -/
def tokenize_sentence (s : Word) : List Word :=
  (splitOnPred Char.isWhitespace ((s.map Char.toLower).map normalizeChar)).filter
    (fun w => !w.isEmpty)

/-- Mirrors the or_insert_with default of process_sentence: a fresh entry with
count 0 and empty metadata lists. -/
def newMetadata (w : Word) : WordMetadata :=
  { word := w, count := 0, sentences := [], word_indices := [] }

/-- Mirrors the mutation applied to a cache entry for one retained token
occurrence: count is incremented, the sentence index is appended only if not
already present, the intra-sentence position is appended unconditionally. -/
def updateMetadata (m : WordMetadata) (sent_idx word_idx : Nat) : WordMetadata :=
  { m with
    count := m.count + 1
    sentences := if sent_idx ∈ m.sentences then m.sentences else m.sentences ++ [sent_idx]
    word_indices := m.word_indices ++ [word_idx] }

/-- Models word_cache.entry(word).or_insert_with(default) followed by the
per-occurrence mutation, on the association-list representation: the first
entry carrying the key is updated in place; if no entry carries it, a fresh
one is created. -/
def cacheUpdate : List WordMetadata → Word → Nat → Nat → List WordMetadata
  | [], w, si, wi => [updateMetadata (newMetadata w) si wi]
  | m :: ms, w, si, wi =>
    if m.word = w then updateMetadata m si wi :: ms
    else m :: cacheUpdate ms w si wi

/-- Mirrors Rust String::len on the word: the UTF-8 byte length, the sum of the
UTF-8 sizes of the characters. -/
def utf8Len (w : Word) : Nat :=
  (w.map Char.utf8Size).sum

/-- Mirrors the retention test of process_sentence: the token is not a stop word
and word.len() exceeds 2. Rust's len() counts UTF-8 bytes, not characters, so a
two-character token of multibyte characters is retained. -/
def keepWord (w : Word) : Bool :=
  !(stop_words.contains w) && decide (2 < utf8Len w)

/-- Mirrors the enumerated token loop of process_sentence, processing the given
tokens starting at intra-sentence position word_idx. -/
def processTokens (cache : List WordMetadata) (tokens : List Word) (sent_idx word_idx : Nat) :
    List WordMetadata :=
  match tokens with
  | [] => cache
  | w :: ws =>
    processTokens (if keepWord w then cacheUpdate cache w sent_idx word_idx else cache)
      ws sent_idx (word_idx + 1)

/-- Mirrors TextProcessor::process_sentence. -/
def process_sentence (cache : List WordMetadata) (sentence : Word) (sent_idx : Nat) :
    List WordMetadata :=
  processTokens cache (tokenize_sentence sentence) sent_idx 0

/-- Mirrors the enumerated generation loop of tokenize_generations from sentence
index sent_idx on. -/
def processAll (cache : List WordMetadata) (gens : List Word) (sent_idx : Nat) :
    List WordMetadata :=
  match gens with
  | [] => cache
  | g :: gs => processAll (process_sentence cache g sent_idx) gs (sent_idx + 1)

/-- Models the conversion loop at the top of tokenize_generations: each element of
the JS array either converts to a string (some) or does not (none, dropped by
the as_string test). -/
def stringEntries (gens : List (Option Word)) : List Word :=
  gens.filterMap id

/-- Mirrors TextProcessor::tokenize_generations: record the generation count of
the converted vector, clear the cache, then process each generation in order. -/
def tokenize_generations (tp : TextProcessor) (gens : List (Option Word)) : TextProcessor :=
  { tp with
    word_cache := processAll ([] : List WordMetadata) (stringEntries gens) 0
    generation_count := (stringEntries gens).length }

/-- Models the totalGenerations field of the object returned by
tokenize_generations: the length of the converted vector. -/
def totalGenerations (gens : List (Option Word)) : Nat :=
  (stringEntries gens).length

/-- Mirrors the byte-lexicographic comparison word1 < word2 of Rust Strings as
code-point-lexicographic comparison of the character sequences. -/
def wordLt : Word → Word → Bool
  | [], [] => false
  | [], _ :: _ => true
  | _ :: _, [] => false
  | a :: as, b :: bs => if a < b then true else if b < a then false else wordLt as bs

/-- Mirrors the common-sentences computation of build_word_graph: the first
word's sentence list filtered to members of the second word's list, collected
into a HashSet; dedup models the set's collection of distinct values, so the
length of the result is the size of the Rust HashSet. -/
def common_sentences (m1 m2 : WordMetadata) : List Nat :=
  (m1.sentences.filter (fun s => m2.sentences.contains s)).dedup

/-- Mirrors the canonical pair key of build_word_graph: the two words joined by a
pipe character, the lexicographically smaller word first. -/
def pairKey (w1 w2 : Word) : Word :=
  if wordLt w1 w2 then w1 ++ '|' :: w2 else w2 ++ '|' :: w1

/-- Models HashMap::insert on the association-list representation of the
co_occurrence map: an existing binding of the key is overwritten in place,
otherwise the binding is appended. -/
def mapInsert (m : List (Word × Nat)) (k : Word) (v : Nat) : List (Word × Nat) :=
  if m.any (fun p => decide (p.1 = k)) then m.map (fun p => if p.1 = k then (k, v) else p)
  else m ++ [(k, v)]

/-- Mirrors the body of the nested co-occurrence loop of build_word_graph for one
ordered pair of filtered entries: distinct words with a non-empty
common-sentence set contribute one map insertion under the canonical key. -/
def coStep (acc : List (Word × Nat)) (m1 m2 : WordMetadata) : List (Word × Nat) :=
  if m1.word ≠ m2.word then
    if (common_sentences m1 m2).isEmpty then acc
    else mapInsert acc (pairKey m1.word m2.word) (common_sentences m1 m2).length
  else acc

/-- Mirrors the nested loops of build_word_graph over the filtered word list
building the co_occurrence map. -/
def buildCoOccurrence (filtered : List WordMetadata) : List (Word × Nat) :=
  filtered.foldl (fun acc m1 => filtered.foldl (fun acc m2 => coStep acc m1 m2) acc) []

/-- Mirrors the link-creation loop of build_word_graph: each key of the
co_occurrence map is split at the pipe character, and only keys with exactly
two parts produce a link. -/
def linksOfMap (co : List (Word × Nat)) : List GraphLink :=
  co.foldl
    (fun ls kv =>
      match splitOnPred (fun c => decide (c = '|')) kv.1 with
      | [a, b] => ls ++ [{ source := a, target := b, weight := kv.2 }]
      | _ => ls)
    []

/-- Mirrors the node construction of build_word_graph: metadata carried over,
relational fields left empty, flags left false. -/
def mkGraphNode (m : WordMetadata) : GraphNode :=
  { word := m.word, count := m.count, sentences := m.sentences,
    word_indices := m.word_indices, children := [], parents := [],
    is_root := false, is_end := false }

/-- Sum of all cached counts: the total_words / totalWords aggregate computed by
build_word_graph and get_performance_stats over the full cache. -/
def totalCount (cache : List WordMetadata) : Nat :=
  (cache.map WordMetadata.count).sum

/-- Mirrors TextProcessor::build_word_graph. -/
def build_word_graph (tp : TextProcessor) (min_frequency : Nat) : GraphData :=
  let filtered := tp.word_cache.filter (fun m => decide (min_frequency ≤ m.count))
  { nodes := filtered.map mkGraphNode
    links := linksOfMap (buildCoOccurrence filtered)
    total_words := totalCount tp.word_cache
    unique_words := tp.word_cache.length }

/-- Mirrors TextProcessor::get_word_frequencies: one (word, count) binding per
cache entry. -/
def get_word_frequencies (tp : TextProcessor) : List (Word × Nat) :=
  tp.word_cache.map (fun m => (m.word, m.count))

/-- Models an IEEE-754 double as far as the verified statements inspect it:
either a finite value, carried as the exact rational the computation denotes,
or one of the two non-finite outcomes that division can produce here. -/
inductive F64 where
  | finite (q : ℚ)
  | posInf
  | nan
  deriving DecidableEq

/-- Finiteness test on the modelled double. -/
def F64.isFinite : F64 → Bool
  | .finite _ => true
  | .posInf => false
  | .nan => false

/-- Models f64 division of two exactly representable nonnegative integers (both
below 2^32 here): division by zero yields NaN for a zero dividend and positive
infinity otherwise, and never traps; a nonzero divisor yields a finite result,
carried as the exact rational quotient (the rounding of that rational to the
nearest double is not modelled; no verified statement inspects it). -/
def divF64 (x y : Nat) : F64 :=
  if y = 0 then (if x = 0 then F64.nan else F64.posInf)
  else F64.finite ((x : ℚ) / (y : ℚ))

/-- Mirrors the object assembled by get_performance_stats. -/
structure PerformanceStats where
  totalWords : Nat
  uniqueWords : Nat
  generations : Nat
  averageWordsPerGeneration : F64
  deriving DecidableEq

/-- Mirrors TextProcessor::get_performance_stats. -/
def get_performance_stats (tp : TextProcessor) : PerformanceStats :=
  { totalWords := totalCount tp.word_cache
    uniqueWords := tp.word_cache.length
    generations := tp.generation_count
    averageWordsPerGeneration := divF64 (totalCount tp.word_cache) tp.generation_count }

/-- Models the borrow discipline of the &self methods as explicit state passing:
the call returns its result together with the processor state after the call,
and a shared borrow leaves that state equal to the state before. -/
def build_word_graph_call (tp : TextProcessor) (min_frequency : Nat) :
    GraphData × TextProcessor :=
  (build_word_graph tp min_frequency, tp)

/-- State-passing form of get_word_frequencies (&self). -/
def get_word_frequencies_call (tp : TextProcessor) : List (Word × Nat) × TextProcessor :=
  (get_word_frequencies tp, tp)

/-- State-passing form of get_performance_stats (&self). -/
def get_performance_stats_call (tp : TextProcessor) : PerformanceStats × TextProcessor :=
  (get_performance_stats tp, tp)

end TextProc

namespace TextProc

/-! ## Concrete scenario from the design document -/

/-- Concrete input batch of the design document's Scenario A: two generations,
both strings. -/
def scenarioA : List (Option Word) :=
  [some "the cat sat".data, some "the dog sat".data]

/-! ## Claims C2, C3, C8, C9, C10 -/

/-- C2: ingesting ["the cat sat", "the dog sat"] produces a cache containing
exactly cat with count 1 and sentences [0], sat with count 2 and sentences
[0,1], and dog with count 1 and sentences [1]; build_word_graph 1 then produces
a cat-sat link of weight 1 and a dog-sat link of weight 1 and no cat-dog link. -/
theorem claim_C2 :
    ((tokenize_generations ⟨[], 0⟩ scenarioA).word_cache.map
        (fun m => (m.word, m.count, m.sentences))).Perm
      [("cat".data, 1, [0]), ("sat".data, 2, [0, 1]), ("dog".data, 1, [1])]
    ∧ ((build_word_graph (tokenize_generations ⟨[], 0⟩ scenarioA) 1).links.map
        (fun l => (l.source, l.target, l.weight))).Perm
      [("cat".data, "sat".data, 1), ("dog".data, "sat".data, 1)]
    ∧ ∀ l ∈ (build_word_graph (tokenize_generations ⟨[], 0⟩ scenarioA) 1).links,
        ¬((l.source = "cat".data ∧ l.target = "dog".data)
          ∨ (l.source = "dog".data ∧ l.target = "cat".data)) :=
  ⟨by decide, by decide, by decide⟩

/-- C3: the nodes of build_word_graph are exactly the cached words with count at
least min_frequency, while total_words and unique_words are computed over the
entire unfiltered cache; when no word qualifies, nodes and links are empty but
the two aggregates are unchanged, and min_frequency 0 yields a node for every
cached word. -/
theorem claim_C3 (tp : TextProcessor) (min_frequency : Nat) :
    (∀ n, n ∈ (build_word_graph tp min_frequency).nodes ↔
      ∃ m ∈ tp.word_cache, min_frequency ≤ m.count ∧ n = mkGraphNode m)
    ∧ (build_word_graph tp min_frequency).total_words = totalCount tp.word_cache
    ∧ (build_word_graph tp min_frequency).unique_words = tp.word_cache.length
    ∧ ((∀ m ∈ tp.word_cache, m.count < min_frequency) →
        (build_word_graph tp min_frequency).nodes = []
          ∧ (build_word_graph tp min_frequency).links = [])
    ∧ ∀ m ∈ tp.word_cache, mkGraphNode m ∈ (build_word_graph tp 0).nodes := by
  refine ⟨?_, rfl, rfl, ?_, ?_⟩
  · intro n
    simp only [build_word_graph, List.mem_map, List.mem_filter, decide_eq_true_eq]
    constructor
    · rintro ⟨m, ⟨hm, hc⟩, rfl⟩
      exact ⟨m, hm, hc, rfl⟩
    · rintro ⟨m, hm, hc, rfl⟩
      exact ⟨m, ⟨hm, hc⟩, rfl⟩
  · intro h
    have hf : tp.word_cache.filter (fun m => decide (min_frequency ≤ m.count)) = [] := by
      rw [List.filter_eq_nil_iff]
      intro m hm
      simpa using Nat.not_le.2 (h m hm)
    simp [build_word_graph, hf, buildCoOccurrence, linksOfMap]
  · intro m hm
    simp only [build_word_graph, List.mem_map]
    exact ⟨m, List.mem_filter.2 ⟨hm, by simp⟩, rfl⟩

/-- C3 witness: on the Scenario A cache with threshold 5 no word qualifies, so the
node and link sets are empty. -/
theorem claim_C3_witness :
    (build_word_graph (tokenize_generations ⟨[], 0⟩ scenarioA) 5).nodes = []
    ∧ (build_word_graph (tokenize_generations ⟨[], 0⟩ scenarioA) 5).links = [] :=
  (claim_C3 (tokenize_generations ⟨[], 0⟩ scenarioA) 5).2.2.2.1 (by decide)

/-- C8: the word cache is mutated only by the clear-then-rebuild of an ingestion:
the graph, frequency and stats queries leave the processor state unchanged
(shared borrow), and the result of an ingestion is independent of all prior
cache and generation-count state. -/
theorem claim_C8 (tp₁ tp₂ : TextProcessor) (gens : List (Option Word)) (f : Nat) :
    (build_word_graph_call tp₁ f).2 = tp₁
    ∧ (get_word_frequencies_call tp₁).2 = tp₁
    ∧ (get_performance_stats_call tp₁).2 = tp₁
    ∧ (tokenize_generations tp₁ gens).word_cache = (tokenize_generations tp₂ gens).word_cache
    ∧ (tokenize_generations tp₁ gens).generation_count
        = (tokenize_generations tp₂ gens).generation_count :=
  ⟨rfl, rfl, rfl, rfl, rfl⟩

/-- C9: with a zero generation count the reported average is a defined non-finite
value (never an error, the embedding is total); with a nonzero generation count
it is the quotient of totalWords by generations. -/
theorem claim_C9 (tp : TextProcessor) :
    (tp.generation_count = 0 →
      (get_performance_stats tp).averageWordsPerGeneration.isFinite = false)
    ∧ (tp.generation_count ≠ 0 →
      (get_performance_stats tp).averageWordsPerGeneration
        = F64.finite (((get_performance_stats tp).totalWords : ℚ)
            / ((get_performance_stats tp).generations : ℚ))) := by
  constructor
  · intro h
    simp only [get_performance_stats, divF64, h, if_pos]
    split <;> rfl
  · intro h
    simp [get_performance_stats, divF64, h]

/-- C9 witness: the empty processor reports a non-finite average, and the Scenario A
processor reports the finite quotient 4 / 2. -/
theorem claim_C9_witness :
    (get_performance_stats ⟨[], 0⟩).averageWordsPerGeneration.isFinite = false
    ∧ (get_performance_stats (tokenize_generations ⟨[], 0⟩ scenarioA)).averageWordsPerGeneration
        = F64.finite ((4 : ℚ) / (2 : ℚ)) := by
  refine ⟨(claim_C9 ⟨[], 0⟩).1 rfl, ?_⟩
  have h := (claim_C9 (tokenize_generations ⟨[], 0⟩ scenarioA)).2 (by decide)
  refine h.trans ?_
  have h1 : (get_performance_stats (tokenize_generations ⟨[], 0⟩ scenarioA)).totalWords = 4 := by
    decide
  have h2 : (get_performance_stats (tokenize_generations ⟨[], 0⟩ scenarioA)).generations = 2 := by
    decide
  rw [h1, h2]
  norm_num

/-- Auxiliary: the length of the retained string entries equals the number of
some-entries of the submitted batch. -/
theorem stringEntries_length (gens : List (Option Word)) :
    (stringEntries gens).length = gens.countP (fun o => o.isSome) := by
  induction gens with
  | nil => rfl
  | cons o t ih =>
    cases o <;> simp [stringEntries, List.countP_cons] <;> simpa [stringEntries] using ih

/-- C10: the recorded generation count and the reported totalGenerations equal the
number of string entries of the submitted batch, and a dropped non-string entry
leaves the ingestion result exactly as if the entry were absent, shifting the
sentence indices of all later generations into positions within the filtered
sequence. -/
theorem claim_C10 (tp : TextProcessor) (gens xs ys : List (Option Word)) :
    (tokenize_generations tp gens).generation_count = gens.countP (fun o => o.isSome)
    ∧ totalGenerations gens = gens.countP (fun o => o.isSome)
    ∧ tokenize_generations tp (xs ++ none :: ys) = tokenize_generations tp (xs ++ ys) := by
  refine ⟨stringEntries_length gens, stringEntries_length gens, ?_⟩
  have h : stringEntries (xs ++ none :: ys) = stringEntries (xs ++ ys) := by
    simp [stringEntries]
  simp [tokenize_generations, h]

end TextProc

namespace TextProc

/-! ## Claim C4: the retention filter and its counting consequences -/

/-- Count observed for a word in a cache: the count of the first entry carrying
the word, 0 when the word is absent. -/
def countOf : List WordMetadata → Word → Nat
  | [], _ => 0
  | m :: ms, w => if m.word = w then m.count else countOf ms w

/-- Auxiliary: the retention test of the source is the negation of the skip
condition in its byte-length form. -/
theorem keepWord_eq (w : Word) :
    keepWord w = !decide (utf8Len w ≤ 2 ∨ w ∈ stop_words) := by
  by_cases h1 : w ∈ stop_words <;> by_cases h2 : utf8Len w ≤ 2 <;>
    simp [keepWord, h1, h2] <;> omega

/-- Auxiliary: one cache update increments exactly the updated word's observed
count by one and leaves every other word's count unchanged. -/
theorem countOf_cacheUpdate (cache : List WordMetadata) (w : Word) (si wi : Nat) (w' : Word) :
    countOf (cacheUpdate cache w si wi) w' = countOf cache w' + (if w' = w then 1 else 0) := by
  induction cache with
  | nil =>
    by_cases h : w' = w
    · subst h; simp [cacheUpdate, countOf, updateMetadata, newMetadata]
    · simp [cacheUpdate, countOf, updateMetadata, newMetadata, Ne.symm h, h]
  | cons m ms ih =>
    by_cases hm : m.word = w
    · by_cases h : w' = w
      · subst h; simp [cacheUpdate, countOf, hm, updateMetadata]
      · simp [cacheUpdate, countOf, hm, updateMetadata, Ne.symm h, h]
    · by_cases h : m.word = w'
      · have hne : ¬w' = w := fun e => hm (h.trans e)
        simp [cacheUpdate, countOf, hm, h, hne]
      · simp [cacheUpdate, countOf, hm, h, ih]

/-- Auxiliary: one cache update increases the total count by exactly one. -/
theorem totalCount_cacheUpdate (cache : List WordMetadata) (w : Word) (si wi : Nat) :
    totalCount (cacheUpdate cache w si wi) = totalCount cache + 1 := by
  induction cache with
  | nil => rfl
  | cons m ms ih =>
    by_cases hm : m.word = w
    · simp [cacheUpdate, hm, totalCount, updateMetadata]; omega
    · simp only [totalCount, List.map_cons, List.sum_cons] at ih ⊢
      simp [cacheUpdate, hm, List.map_cons, List.sum_cons, ih]
      omega

/-- Auxiliary: processing a token list adds one to the total count per retained
token. -/
theorem totalCount_processTokens (ts : List Word) (cache : List WordMetadata) (si wi : Nat) :
    totalCount (processTokens cache ts si wi)
      = totalCount cache + (ts.filter keepWord).length := by
  induction ts generalizing cache wi with
  | nil => simp [processTokens]
  | cons w ws ih =>
    by_cases h : keepWord w
    · simp [processTokens, h, ih, totalCount_cacheUpdate, List.filter_cons]
      omega
    · simp [processTokens, h, ih, List.filter_cons]

/-- Auxiliary: processing a generation list adds the per-generation retained token
counts to the total count. -/
theorem totalCount_processAll (gs : List Word) (cache : List WordMetadata) (i : Nat) :
    totalCount (processAll cache gs i)
      = totalCount cache
        + (gs.map (fun g => ((tokenize_sentence g).filter keepWord).length)).sum := by
  induction gs generalizing cache i with
  | nil => simp [processAll]
  | cons g gs ih =>
    simp [processAll, ih, process_sentence, totalCount_processTokens]
    omega

/-- C4, as amended: a token is skipped (the cache is untouched) exactly when its
UTF-8 byte length is at most 2 or it is a stop word - not its character count:
the source tests word.len(), which counts bytes, and retains a two-character
token of multibyte characters; a retained token increments exactly one word's
count by one; consequently the sum of all cached counts after an ingestion
equals the number of retained tokens of the batch. -/
theorem claim_C4 (cache : List WordMetadata) (w w' : Word) (ws : List Word)
    (si wi : Nat) (tp : TextProcessor) (gens : List (Option Word)) :
    processTokens cache (w :: ws) si wi
      = processTokens
          (if utf8Len w ≤ 2 ∨ w ∈ stop_words then cache else cacheUpdate cache w si wi)
          ws si (wi + 1)
    ∧ countOf (cacheUpdate cache w si wi) w' = countOf cache w' + (if w' = w then 1 else 0)
    ∧ totalCount (tokenize_generations tp gens).word_cache
        = ((stringEntries gens).map (fun g =>
            ((tokenize_sentence g).filter
              (fun t => !decide (utf8Len t ≤ 2 ∨ t ∈ stop_words))).length)).sum := by
  refine ⟨?_, countOf_cacheUpdate cache w si wi w', ?_⟩
  · show processTokens (if keepWord w then cacheUpdate cache w si wi else cache) ws si (wi + 1)
      = _
    congr 1
    rw [keepWord_eq]
    by_cases h : utf8Len w ≤ 2 ∨ w ∈ stop_words <;> simp [h]
  · show totalCount (processAll [] (stringEntries gens) 0) = _
    rw [totalCount_processAll]
    have h0 : totalCount ([] : List WordMetadata) = 0 := rfl
    rw [h0, Nat.zero_add]
    apply congrArg
    apply List.map_congr_left
    intro g _
    rw [List.filter_congr (fun x _ => keepWord_eq x)]

/-- C4 counterexample: the original character-count reading of the skip condition
is false of the program. The token of two e-acute characters has character
length 2 and is no stop word, so that reading says it is skipped and
contributes nothing to the cache; the source's word.len() test counts its 4
UTF-8 bytes and retains it, so processing it changes the cache. -/
theorem claim_C4_counterexample :
    ("éé".data.length ≤ 2 ∨ "éé".data ∈ stop_words)
    ∧ processTokens [] ["éé".data] 0 0
        ≠ (if "éé".data.length ≤ 2 ∨ "éé".data ∈ stop_words then ([] : List WordMetadata)
           else cacheUpdate [] "éé".data 0 0) := by
  constructor
  · exact Or.inl (by decide)
  · decide

end TextProc

namespace TextProc

/-! ## Claims C5 and C6: cache metadata invariants -/

/-- Auxiliary: a per-entry property survives a cache update when it survives the
entry mutation and holds for a freshly created, mutated entry. -/
theorem forall_cacheUpdate (P : WordMetadata → Prop) (cache : List WordMetadata)
    (w : Word) (si wi : Nat)
    (h : ∀ m ∈ cache, P m)
    (hupd : ∀ m, P m → P (updateMetadata m si wi))
    (hnew : P (updateMetadata (newMetadata w) si wi)) :
    ∀ m ∈ cacheUpdate cache w si wi, P m := by
  induction cache with
  | nil =>
    intro m hm
    simp only [cacheUpdate, List.mem_singleton] at hm
    subst hm
    exact hnew
  | cons m0 ms ih =>
    intro m hm
    by_cases h0 : m0.word = w
    · simp only [cacheUpdate, if_pos h0] at hm
      rcases List.mem_cons.1 hm with rfl | hm
      · exact hupd m0 (h m0 (List.mem_cons_self _ _))
      · exact h m (List.mem_cons_of_mem _ hm)
    · simp only [cacheUpdate, if_neg h0] at hm
      rcases List.mem_cons.1 hm with rfl | hm
      · exact h m (List.mem_cons_self _ _)
      · exact ih (fun x hx => h x (List.mem_cons_of_mem _ hx)) m hm

/-- Auxiliary: a per-entry property preserved by cache updates at sentence index si
is preserved by the whole token loop of that sentence. -/
theorem forall_processTokens (P : WordMetadata → Prop) (si : Nat)
    (hstep : ∀ cache w wi, (∀ m ∈ cache, P m) → ∀ m ∈ cacheUpdate cache w si wi, P m)
    (ts : List Word) :
    ∀ cache wi, (∀ m ∈ cache, P m) → ∀ m ∈ processTokens cache ts si wi, P m := by
  induction ts with
  | nil => intro cache wi h; simpa [processTokens] using h
  | cons w ws ih =>
    intro cache wi h
    simp only [processTokens]
    apply ih
    by_cases hk : keepWord w
    · simpa only [hk, if_true] using hstep cache w wi h
    · simpa only [hk, if_false] using h

/-- Auxiliary: a per-entry property preserved by every cache update is preserved by
processing any generation list. -/
theorem forall_processAll (P : WordMetadata → Prop)
    (hstep : ∀ cache w si wi, (∀ m ∈ cache, P m) → ∀ m ∈ cacheUpdate cache w si wi, P m)
    (gs : List Word) :
    ∀ cache i, (∀ m ∈ cache, P m) → ∀ m ∈ processAll cache gs i, P m := by
  induction gs with
  | nil => intro cache i h; simpa [processAll] using h
  | cons g gs ih =>
    intro cache i h
    simp only [processAll]
    exact ih _ _ (forall_processTokens P i (fun c w wi => hstep c w i wi) _ cache 0 h)

/-- Per-entry sentence invariant during and after processing of sentences below
index i: the sentence list is strictly ascending and all entries are below i. -/
def SentInv (i : Nat) (m : WordMetadata) : Prop :=
  m.sentences.Pairwise (· < ·) ∧ ∀ s ∈ m.sentences, s < i

/-- Auxiliary: the entry mutation at sentence index si preserves the sentence
invariant with bound si + 1. -/
theorem sentInv_updateMetadata (m : WordMetadata) (si wi : Nat) (h : SentInv (si + 1) m) :
    SentInv (si + 1) (updateMetadata m si wi) := by
  obtain ⟨hp, hb⟩ := h
  by_cases hmem : si ∈ m.sentences
  · exact ⟨by simpa [updateMetadata, hmem] using hp, by simpa [updateMetadata, hmem] using hb⟩
  · constructor
    · simp only [updateMetadata, if_neg hmem]
      rw [List.pairwise_append]
      refine ⟨hp, List.pairwise_singleton _ _, ?_⟩
      intro a ha b hb'
      rcases List.mem_singleton.1 hb' with rfl
      have h1 := hb a ha
      have h2 : a ≠ b := fun e => hmem (e ▸ ha)
      omega
    · simp only [updateMetadata, if_neg hmem]
      intro s hs
      rcases List.mem_append.1 hs with hs | hs
      · exact hb s hs
      · rcases List.mem_singleton.1 hs with rfl
        omega

/-- Auxiliary: the sentence invariant with bound si + 1 survives a cache update at
sentence index si. -/
theorem sentInv_cacheUpdate (cache : List WordMetadata) (w : Word) (si wi : Nat)
    (h : ∀ m ∈ cache, SentInv (si + 1) m) :
    ∀ m ∈ cacheUpdate cache w si wi, SentInv (si + 1) m := by
  refine forall_cacheUpdate _ cache w si wi h (fun m hm => sentInv_updateMetadata m si wi hm) ?_
  exact sentInv_updateMetadata _ si wi (by simp [SentInv, newMetadata])

/-- Auxiliary: processing the generations of a list starting at index i turns the
sentence invariant at bound i into the invariant at bound i plus the list
length. -/
theorem sentInv_processAll (gs : List Word) :
    ∀ (cache : List WordMetadata) (i : Nat), (∀ m ∈ cache, SentInv i m) →
      ∀ m ∈ processAll cache gs i, SentInv (i + gs.length) m := by
  induction gs with
  | nil => intro cache i h; simpa [processAll] using h
  | cons g gs ih =>
    intro cache i h
    simp only [processAll]
    have hw : ∀ m ∈ cache, SentInv (i + 1) m := by
      intro m hm
      obtain ⟨hp, hb⟩ := h m hm
      exact ⟨hp, fun s hs => Nat.lt_succ_of_lt (hb s hs)⟩
    have h1 : ∀ m ∈ process_sentence cache g i, SentInv (i + 1) m :=
      forall_processTokens (SentInv (i + 1)) i
        (fun c w wi hc => sentInv_cacheUpdate c w i wi hc) _ cache 0 hw
    have h2 := ih (process_sentence cache g i) (i + 1) h1
    intro m hm
    have := h2 m hm
    have heq : i + 1 + gs.length = i + (gs.length + 1) := by omega
    rw [heq] at this
    simpa using this

/-- C5: after any batch ingestion every cached word's sentence list is strictly
ascending with no duplicate entries, and every index in it is below the
recorded generation count of the batch. -/
theorem claim_C5 (tp : TextProcessor) (gens : List (Option Word)) :
    ∀ m ∈ (tokenize_generations tp gens).word_cache,
      m.sentences.Pairwise (· < ·) ∧ m.sentences.Nodup
        ∧ ∀ s ∈ m.sentences, s < (tokenize_generations tp gens).generation_count := by
  intro m hm
  have h := sentInv_processAll (stringEntries gens) [] 0 (by simp) m hm
  obtain ⟨hp, hb⟩ := h
  refine ⟨hp, hp.imp (fun hab => ne_of_lt hab), ?_⟩
  intro s hs
  simpa using hb s hs

/-- C5 witness: the Scenario A entry for sat has the strictly ascending sentence
list [0, 1]. -/
theorem claim_C5_witness :
    List.Pairwise (fun a b => a < b) ([0, 1] : List Nat) :=
  (claim_C5 ⟨[], 0⟩ scenarioA
    { word := "sat".data, count := 2, sentences := [0, 1], word_indices := [2, 2] }
    (by decide)).1

/-- C6: after any batch ingestion the length of every cached word's word_indices
list equals its count (one append per occurrence, no deduplication), and the
same position value can recur across different sentences, witnessed by the
Scenario A entry for sat with word_indices [2, 2]. -/
theorem claim_C6 (tp : TextProcessor) (gens : List (Option Word)) :
    (∀ m ∈ (tokenize_generations tp gens).word_cache, m.word_indices.length = m.count)
    ∧ ∃ m ∈ (tokenize_generations ⟨[], 0⟩ scenarioA).word_cache,
        ¬m.word_indices.Nodup := by
  constructor
  · apply forall_processAll (fun m => m.word_indices.length = m.count) ?hstep
      (stringEntries gens) [] 0 (by simp)
    intro cache w si wi h
    refine forall_cacheUpdate _ cache w si wi h ?_ ?_
    · intro m hm
      simp [updateMetadata, hm]
    · simp [updateMetadata, newMetadata]
  · exact ⟨{ word := "sat".data, count := 2, sentences := [0, 1], word_indices := [2, 2] },
      by decide, by decide⟩

/-- C6 witness: the Scenario A entry for sat has word_indices of length equal to its
count 2. -/
theorem claim_C6_witness : ([2, 2] : List Nat).length = 2 :=
  (claim_C6 ⟨[], 0⟩ scenarioA).1
    { word := "sat".data, count := 2, sentences := [0, 1], word_indices := [2, 2] }
    (by decide)

end TextProc

namespace TextProc

/-! ## Claim C7: the tokenizer -/

/-- Auxiliary: splitting never returns an empty fragment list. -/
theorem splitOnPred_ne_nil (p : Char → Bool) (xs : List Char) : splitOnPred p xs ≠ [] := by
  cases xs with
  | nil => simp [splitOnPred]
  | cons c cs =>
    simp only [splitOnPred]
    split
    · simp
    · split <;> simp

/-- Auxiliary: every character of every fragment fails the separator test and comes
from the input. -/
theorem mem_splitOnPred (p : Char → Bool) (xs : List Char) :
    ∀ t ∈ splitOnPred p xs, ∀ c ∈ t, p c = false ∧ c ∈ xs := by
  induction xs with
  | nil =>
    intro t ht c hc
    simp only [splitOnPred, List.mem_singleton] at ht
    subst ht
    simp at hc
  | cons a as ih =>
    intro t ht c hc
    simp only [splitOnPred] at ht
    by_cases hp : p a
    · rw [if_pos hp] at ht
      rcases List.mem_cons.1 ht with rfl | ht
      · simp at hc
      · have h := ih t ht c hc
        exact ⟨h.1, List.mem_cons_of_mem _ h.2⟩
    · rw [if_neg hp] at ht
      rcases hsplit : splitOnPred p as with _ | ⟨w, ws⟩
      · exact absurd hsplit (splitOnPred_ne_nil p as)
      · rw [hsplit] at ht
        rcases List.mem_cons.1 ht with rfl | ht
        · rcases List.mem_cons.1 hc with rfl | hc
          · exact ⟨by simpa using hp, List.mem_cons_self _ _⟩
          · have h := ih w (by rw [hsplit]; exact List.mem_cons_self _ _) c hc
            exact ⟨h.1, List.mem_cons_of_mem _ h.2⟩
        · have h := ih t (by rw [hsplit]; exact List.mem_cons_of_mem _ ht) c hc
          exact ⟨h.1, List.mem_cons_of_mem _ h.2⟩

/-- Auxiliary: flattening the fragments recovers the input without its separator
characters, in order. -/
theorem flatten_splitOnPred (p : Char → Bool) (xs : List Char) :
    (splitOnPred p xs).flatten = xs.filter (fun c => !p c) := by
  induction xs with
  | nil => simp [splitOnPred]
  | cons a as ih =>
    simp only [splitOnPred]
    by_cases hp : p a
    · rw [if_pos hp]
      simpa [List.filter_cons, hp] using ih
    · rw [if_neg hp]
      rcases hsplit : splitOnPred p as with _ | ⟨w, ws⟩
      · exact absurd hsplit (splitOnPred_ne_nil p as)
      · rw [hsplit] at ih
        simp only [List.flatten_cons] at ih ⊢
        simp [List.filter_cons, hp, ← ih]

/-- Auxiliary: dropping empty fragments does not change the flattening. -/
theorem flatten_filter_nonempty (l : List (List Char)) :
    (l.filter (fun w => !w.isEmpty)).flatten = l.flatten := by
  induction l with
  | nil => rfl
  | cons w ws ih =>
    by_cases h : w.isEmpty
    · have he : w = [] := List.isEmpty_iff.1 h
      simp [List.filter_cons, h, he, ih]
    · simp [List.filter_cons, h, ih]

/-- Auxiliary: a normalized character that is not whitespace is alphabetic. -/
theorem normalizeChar_alpha (c : Char) (h : (normalizeChar c).isWhitespace = false) :
    (normalizeChar c).isAlpha = true := by
  by_cases hc : (c.isAlpha || c.isWhitespace) = true
  · rcases Bool.or_eq_true_iff.1 hc with ha | hw
    · simpa [normalizeChar, hc] using ha
    · rw [normalizeChar, if_pos hc] at h
      rw [hw] at h
      cases h
  · rw [normalizeChar, if_neg hc] at h
    simp at h

/-- Auxiliary: packing a valid codepoint and reading it back is the identity. -/
theorem char_toNat_ofNat {n : Nat} (h : n.isValidChar) : (Char.ofNat n).toNat = n := by
  rw [Char.ofNat, dif_pos h]
  simp [Char.ofNatAux, Char.toNat, UInt32.toNat]

/-- Auxiliary: ASCII lowercasing is idempotent. -/
theorem toLower_toLower (c : Char) : c.toLower.toLower = c.toLower := by
  simp only [Char.toLower]
  by_cases h : c.toNat ≥ 65 ∧ c.toNat ≤ 90
  · rw [if_pos h]
    have hv : (c.toNat + 32).isValidChar := Or.inl (by omega)
    have ht : (Char.ofNat (c.toNat + 32)).toNat = c.toNat + 32 := char_toNat_ofNat hv
    rw [ht, if_neg (by omega)]
  · rw [if_neg h, if_neg h]

/-- C7: every token of tokenize_sentence is a non-empty sequence of alphabetic,
non-whitespace characters fixed by lowercasing, and the tokens flattened in
order are exactly the lowercased, normalized input with its whitespace
separators discarded: the tokenizer lowercases, replaces every character that
is neither alphabetic nor whitespace by a space, splits on whitespace runs and
drops empty fragments. It is a pure function, so determinism is inherent. -/
theorem claim_C7 (s : Word) :
    (∀ t ∈ tokenize_sentence s,
      t ≠ [] ∧ ∀ c ∈ t, c.isAlpha = true ∧ c.isWhitespace = false ∧ c.toLower = c)
    ∧ (tokenize_sentence s).flatten
        = ((s.map Char.toLower).map normalizeChar).filter (fun c => !c.isWhitespace) := by
  constructor
  · intro t ht
    have ht' := List.mem_filter.1 ht
    constructor
    · intro he
      rw [he] at ht'
      simp at ht'
    · intro c hc
      have hmem := mem_splitOnPred _ _ t ht'.1 c hc
      have hws : c.isWhitespace = false := hmem.1
      rcases List.mem_map.1 hmem.2 with ⟨d, hd, rfl⟩
      refine ⟨normalizeChar_alpha d hws, hws, ?_⟩
      rcases List.mem_map.1 hd with ⟨e, _, rfl⟩
      by_cases hcase : (e.toLower.isAlpha || e.toLower.isWhitespace) = true
      · simp only [normalizeChar, if_pos hcase]
        exact toLower_toLower e
      · rw [normalizeChar, if_neg hcase] at hws
        simp at hws
  · rw [tokenize_sentence, flatten_filter_nonempty, flatten_splitOnPred]

/-- C7 witness: in the tokens of "The Cat", the character c of the token cat is
fixed by lowercasing. -/
theorem claim_C7_witness : Char.toLower 'c' = 'c' :=
  (((claim_C7 "The Cat".data).1 "cat".data (by decide)).2 'c' (by decide)).2.2

end TextProc

namespace TextProc

/-! ## Claim C1: the co-occurrence links, stage 1 - order and key lemmas -/

/-- Auxiliary: the lexicographic comparison is irreflexive. -/
theorem wordLt_irrefl (w : Word) : wordLt w w = false := by
  induction w with
  | nil => rfl
  | cons a as ih => simp [wordLt, lt_irrefl, ih]

/-- Auxiliary: the lexicographic comparison is asymmetric. -/
theorem wordLt_asymm (v w : Word) (h : wordLt v w = true) : wordLt w v = false := by
  induction v generalizing w with
  | nil =>
    cases w with
    | nil => simp [wordLt] at h
    | cons b bs => rfl
  | cons a as ih =>
    cases w with
    | nil => simp [wordLt] at h
    | cons b bs =>
      simp only [wordLt] at h ⊢
      by_cases hab : a < b
      · rw [if_neg (lt_asymm hab), if_pos hab]
      · rw [if_neg hab] at h
        by_cases hba : b < a
        · rw [if_pos hba] at h
          cases h
        · rw [if_neg hba] at h
          rw [if_neg hba, if_neg hab]
          exact ih bs h

/-- Auxiliary: the lexicographic comparison is connected. -/
theorem wordLt_conn (v w : Word) (h1 : wordLt v w = false) (h2 : wordLt w v = false) :
    v = w := by
  induction v generalizing w with
  | nil =>
    cases w with
    | nil => rfl
    | cons b bs => simp [wordLt] at h1
  | cons a as ih =>
    cases w with
    | nil => simp [wordLt] at h2
    | cons b bs =>
      simp only [wordLt] at h1 h2
      by_cases hab : a < b
      · rw [if_pos hab] at h1
        cases h1
      · by_cases hba : b < a
        · rw [if_pos hba] at h2
          cases h2
        · have hchar : a = b := le_antisymm (not_lt.1 hba) (not_lt.1 hab)
          subst hchar
          rw [if_neg hab, if_neg hab] at h1
          rw [if_neg hba, if_neg hba] at h2
          rw [ih bs h1 h2]

/-- Auxiliary: the canonical pair key is symmetric in the two words. -/
theorem pairKey_comm (w1 w2 : Word) : pairKey w1 w2 = pairKey w2 w1 := by
  unfold pairKey
  by_cases h12 : wordLt w1 w2 = true
  · rw [if_pos h12, if_neg (by simp [wordLt_asymm _ _ h12])]
  · by_cases h21 : wordLt w2 w1 = true
    · rw [if_neg (by simp [h12]), if_pos h21]
    · rw [wordLt_conn w1 w2 (by simpa using h12) (by simpa using h21)]

/-- Auxiliary: splitting a separator-free sequence yields one fragment. -/
theorem splitOnPred_no_sep (p : Char → Bool) (b : List Char)
    (hb : ∀ x ∈ b, p x = false) : splitOnPred p b = [b] := by
  induction b with
  | nil => rfl
  | cons x xs ih =>
    have hx : p x = false := hb x (List.mem_cons_self _ _)
    have ht := ih (fun y hy => hb y (List.mem_cons_of_mem _ hy))
    simp [splitOnPred, hx, ht]

/-- Auxiliary: splitting two separator-free sequences joined by one separator
yields exactly the two fragments. -/
theorem splitOnPred_sep_eq (p : Char → Bool) (a b : List Char) (c : Char)
    (hc : p c = true) (ha : ∀ x ∈ a, p x = false) (hb : ∀ x ∈ b, p x = false) :
    splitOnPred p (a ++ c :: b) = [a, b] := by
  induction a with
  | nil => simp [splitOnPred, hc, splitOnPred_no_sep p b hb]
  | cons x xs ih =>
    have hx : p x = false := ha x (List.mem_cons_self _ _)
    have ht := ih (fun y hy => ha y (List.mem_cons_of_mem _ hy))
    simp [splitOnPred, hx, ht]

/-- Auxiliary: the separator test for the pipe character. -/
def pipeSep (c : Char) : Bool := decide (c = '|')

/-- Auxiliary: the canonical key of two pipe-free words splits into the two words,
lexicographically smaller first. -/
theorem pairKey_parts (w1 w2 : Word) (h1 : '|' ∉ w1) (h2 : '|' ∉ w2) :
    ∃ a b, splitOnPred pipeSep (pairKey w1 w2) = [a, b]
      ∧ ((a = w1 ∧ b = w2) ∨ (a = w2 ∧ b = w1))
      ∧ (w1 ≠ w2 → wordLt a b = true) := by
  have hp1 : ∀ x ∈ w1, pipeSep x = false := by
    intro x hx
    simp only [pipeSep, decide_eq_false_iff_not]
    exact fun e => h1 (e ▸ hx)
  have hp2 : ∀ x ∈ w2, pipeSep x = false := by
    intro x hx
    simp only [pipeSep, decide_eq_false_iff_not]
    exact fun e => h2 (e ▸ hx)
  have hc : pipeSep '|' = true := by simp [pipeSep]
  unfold pairKey
  by_cases h : wordLt w1 w2 = true
  · rw [if_pos h]
    exact ⟨w1, w2, splitOnPred_sep_eq _ _ _ _ hc hp1 hp2, Or.inl ⟨rfl, rfl⟩, fun _ => h⟩
  · rw [if_neg (by simpa using h)]
    refine ⟨w2, w1, splitOnPred_sep_eq _ _ _ _ hc hp2 hp1, Or.inr ⟨rfl, rfl⟩, fun hne => ?_⟩
    by_cases h21 : wordLt w2 w1 = true
    · exact h21
    · exact absurd (wordLt_conn w1 w2 (by simpa using h) (by simpa using h21)) hne

/-- Auxiliary: on pipe-free words the canonical key determines the unordered pair. -/
theorem pairKey_inj (w1 w2 w3 w4 : Word)
    (h1 : '|' ∉ w1) (h2 : '|' ∉ w2) (h3 : '|' ∉ w3) (h4 : '|' ∉ w4)
    (heq : pairKey w1 w2 = pairKey w3 w4) :
    (w1 = w3 ∧ w2 = w4) ∨ (w1 = w4 ∧ w2 = w3) := by
  obtain ⟨a, b, hs, hab, -⟩ := pairKey_parts w1 w2 h1 h2
  obtain ⟨a', b', hs', hab', -⟩ := pairKey_parts w3 w4 h3 h4
  rw [heq, hs'] at hs
  injection hs with e1 e2
  injection e2 with e2 _
  subst e1
  subst e2
  rcases hab with ⟨rfl, rfl⟩ | ⟨rfl, rfl⟩ <;> rcases hab' with ⟨rfl, rfl⟩ | ⟨rfl, rfl⟩
  · exact Or.inl ⟨rfl, rfl⟩
  · exact Or.inr ⟨rfl, rfl⟩
  · exact Or.inr ⟨rfl, rfl⟩
  · exact Or.inl ⟨rfl, rfl⟩

end TextProc

namespace TextProc

/-! ## Claim C1, stage 2 - intersection, map insertion and well-formedness -/

/-- Auxiliary: the length of the deduplicated common-sentence list is the
cardinality of the intersection of the two sentence sets. -/
theorem common_sentences_length (m1 m2 : WordMetadata) :
    (common_sentences m1 m2).length
      = (m1.sentences.toFinset ∩ m2.sentences.toFinset).card := by
  rw [common_sentences, ← List.card_toFinset]
  congr 1
  rw [List.toFinset_filter]
  ext s
  simp [List.mem_toFinset]

/-- Auxiliary: the common-sentence list is empty exactly when the intersection of
the two sentence sets is empty. -/
theorem common_sentences_isEmpty_iff (m1 m2 : WordMetadata) :
    (common_sentences m1 m2).isEmpty = true
      ↔ m1.sentences.toFinset ∩ m2.sentences.toFinset = ∅ := by
  rw [List.isEmpty_iff]
  constructor
  · intro h
    have hl := common_sentences_length m1 m2
    rw [h] at hl
    exact Finset.card_eq_zero.1 hl.symm
  · intro h
    have hl := common_sentences_length m1 m2
    rw [h] at hl
    simpa using List.length_eq_zero.1 (by simpa using hl)

/-- Auxiliary: membership after a map insertion comes from the old map or is the
inserted binding. -/
theorem mem_mapInsert (m : List (Word × Nat)) (k : Word) (v : Nat) (q : Word × Nat)
    (hq : q ∈ mapInsert m k v) : q ∈ m ∨ q = (k, v) := by
  unfold mapInsert at hq
  split at hq
  · rcases List.mem_map.1 hq with ⟨p, hp, hpq⟩
    by_cases hpk : p.1 = k
    · rw [if_pos hpk] at hpq
      exact Or.inr hpq.symm
    · rw [if_neg hpk] at hpq
      exact Or.inl (hpq ▸ hp)
  · rcases List.mem_append.1 hq with h | h
    · exact Or.inl h
    · exact Or.inr (List.mem_singleton.1 h)

/-- Auxiliary: the inserted binding is always present after a map insertion. -/
theorem self_mem_mapInsert (m : List (Word × Nat)) (k : Word) (v : Nat) :
    (k, v) ∈ mapInsert m k v := by
  unfold mapInsert
  split
  · rename_i h
    rcases List.any_eq_true.1 h with ⟨p, hp, hpk⟩
    refine List.mem_map.2 ⟨p, hp, ?_⟩
    rw [if_pos (of_decide_eq_true hpk)]
  · exact List.mem_append.2 (Or.inr (List.mem_singleton.2 rfl))

/-- Auxiliary: a binding whose value agrees with any overwrite of its key survives a
map insertion. -/
theorem mem_mapInsert_of_mem (m : List (Word × Nat)) (k : Word) (v : Nat)
    (q : Word × Nat) (hq : q ∈ m) (hv : q.1 = k → q.2 = v) : q ∈ mapInsert m k v := by
  unfold mapInsert
  split
  · refine List.mem_map.2 ⟨q, hq, ?_⟩
    by_cases hqk : q.1 = k
    · rw [if_pos hqk]
      exact Prod.ext_iff.2 ⟨hqk.symm, (hv hqk).symm⟩
    · rw [if_neg hqk]
  · exact List.mem_append.2 (Or.inl hq)

/-- Auxiliary: a map insertion keeps the keys pairwise distinct. -/
theorem keys_mapInsert (m : List (Word × Nat)) (k : Word) (v : Nat)
    (h : (m.map Prod.fst).Nodup) : ((mapInsert m k v).map Prod.fst).Nodup := by
  unfold mapInsert
  split
  · have heq : (m.map (fun p => if p.1 = k then (k, v) else p)).map Prod.fst
        = m.map Prod.fst := by
      rw [List.map_map]
      apply List.map_congr_left
      intro p _
      by_cases hpk : p.1 = k
      · simp [hpk]
      · simp [hpk]
    rw [heq]
    exact h
  · rename_i hany
    rw [List.map_append]
    simp only [List.map_cons, List.map_nil]
    refine List.Nodup.append h (List.nodup_singleton k) ?_
    rw [List.disjoint_singleton]
    intro hk
    rcases List.mem_map.1 hk with ⟨p, hp, hpk⟩
    exact hany (List.any_eq_true.2 ⟨p, hp, decide_eq_true hpk⟩)

/-- Well-formedness of a cache state as ingestion produces it: pairwise distinct
words, none containing the pipe character used by the canonical pair key
(tokens consist of alphabetic characters only). -/
def CacheWF (cache : List WordMetadata) : Prop :=
  (cache.map WordMetadata.word).Nodup ∧ ∀ m ∈ cache, '|' ∉ m.word

instance (cache : List WordMetadata) : Decidable (CacheWF cache) := by
  unfold CacheWF
  infer_instance

/-- Auxiliary: filtering preserves cache well-formedness. -/
theorem cacheWF_filter (cache : List WordMetadata) (p : WordMetadata → Bool)
    (h : CacheWF cache) : CacheWF (cache.filter p) := by
  refine ⟨List.Nodup.sublist (List.Sublist.map _ (List.filter_sublist cache)) h.1, ?_⟩
  intro m hm
  exact h.2 m (List.mem_of_mem_filter hm)

/-- Auxiliary: in a well-formed cache the word determines the entry. -/
theorem word_inj (cache : List WordMetadata) (h : CacheWF cache)
    (m1 m2 : WordMetadata) (hm1 : m1 ∈ cache) (hm2 : m2 ∈ cache)
    (he : m1.word = m2.word) : m1 = m2 :=
  List.inj_on_of_nodup_map h.1 hm1 hm2 he

/-- A binding the co-occurrence loop can produce over a filtered word list: the
canonical key of two distinct qualifying words with a non-empty
common-sentence set, bound to the size of that set. -/
def goodPair (filtered : List WordMetadata) (k : Word) (v : Nat) : Prop :=
  ∃ m1 ∈ filtered, ∃ m2 ∈ filtered,
    m1.word ≠ m2.word ∧ (common_sentences m1 m2).isEmpty = false
      ∧ k = pairKey m1.word m2.word ∧ v = (common_sentences m1 m2).length

/-- Auxiliary: over a well-formed list, a key determines the value of any good
binding. -/
theorem goodPair_val_eq (filtered : List WordMetadata) (hwf : CacheWF filtered)
    (k : Word) (v v' : Nat) (g1 : goodPair filtered k v) (g2 : goodPair filtered k v') :
    v = v' := by
  obtain ⟨a, ha, b, hb, hab, -, hk1, hv1⟩ := g1
  obtain ⟨c, hc, d, hd, hcd, -, hk2, hv2⟩ := g2
  have hinj := pairKey_inj a.word b.word c.word d.word
    (hwf.2 a ha) (hwf.2 b hb) (hwf.2 c hc) (hwf.2 d hd) (hk1 ▸ hk2)
  subst hv1
  subst hv2
  rcases hinj with ⟨e1, e2⟩ | ⟨e1, e2⟩
  · rw [word_inj filtered hwf a c ha hc e1, word_inj filtered hwf b d hb hd e2]
  · rw [word_inj filtered hwf a d ha hd e1, word_inj filtered hwf b c hb hc e2,
      common_sentences_length, common_sentences_length, Finset.inter_comm]

end TextProc

namespace TextProc

/-! ## Claim C1, stage 3 - invariants of the co-occurrence fold -/

/-- Invariant of the co-occurrence accumulator: every binding is good over the
filtered list and the keys are pairwise distinct. -/
def CoSound (filtered : List WordMetadata) (acc : List (Word × Nat)) : Prop :=
  (∀ p ∈ acc, goodPair filtered p.1 p.2) ∧ (acc.map Prod.fst).Nodup

/-- Auxiliary: one loop-body step preserves the accumulator invariant. -/
theorem coStep_sound (filtered : List WordMetadata) (acc : List (Word × Nat))
    (m1 m2 : WordMetadata) (hm1 : m1 ∈ filtered) (hm2 : m2 ∈ filtered)
    (h : CoSound filtered acc) : CoSound filtered (coStep acc m1 m2) := by
  unfold coStep
  split
  · rename_i hne
    split
    · exact h
    · rename_i hcs
      have hcs' : (common_sentences m1 m2).isEmpty = false := by simpa using hcs
      constructor
      · intro p hp
        rcases mem_mapInsert _ _ _ p hp with hp' | rfl
        · exact h.1 p hp'
        · exact ⟨m1, hm1, m2, hm2, hne, hcs', rfl, rfl⟩
      · exact keys_mapInsert _ _ _ h.2
  · exact h

/-- Auxiliary: one loop-body step keeps every present binding, over a well-formed
filtered list. -/
theorem coStep_keep (filtered : List WordMetadata) (hwf : CacheWF filtered)
    (acc : List (Word × Nat)) (m1 m2 : WordMetadata)
    (hm1 : m1 ∈ filtered) (hm2 : m2 ∈ filtered)
    (h : CoSound filtered acc) (k : Word) (v : Nat) (hkv : (k, v) ∈ acc) :
    (k, v) ∈ coStep acc m1 m2 := by
  unfold coStep
  split
  · rename_i hne
    split
    · exact hkv
    · rename_i hcs
      apply mem_mapInsert_of_mem _ _ _ _ hkv
      intro hke
      have hg : goodPair filtered k v := h.1 (k, v) hkv
      have hg' : goodPair filtered k ((common_sentences m1 m2).length) :=
        ⟨m1, hm1, m2, hm2, hne, by simpa using hcs, hke, rfl⟩
      exact goodPair_val_eq filtered hwf k v _ hg hg'
  · exact hkv

/-- Auxiliary: the inner loop preserves the accumulator invariant. -/
theorem coFold_inner_sound (filtered : List WordMetadata) (m1 : WordMetadata)
    (hm1 : m1 ∈ filtered) (l : List WordMetadata) (hl : ∀ x ∈ l, x ∈ filtered) :
    ∀ acc, CoSound filtered acc →
      CoSound filtered (l.foldl (fun a m2 => coStep a m1 m2) acc) := by
  induction l with
  | nil => intro acc h; simpa using h
  | cons x xs ih =>
    intro acc h
    simp only [List.foldl_cons]
    exact ih (fun y hy => hl y (List.mem_cons_of_mem _ hy)) _
      (coStep_sound _ _ _ _ hm1 (hl x (List.mem_cons_self _ _)) h)

/-- Auxiliary: the inner loop keeps every present binding. -/
theorem coFold_inner_keep (filtered : List WordMetadata) (hwf : CacheWF filtered)
    (m1 : WordMetadata) (hm1 : m1 ∈ filtered)
    (l : List WordMetadata) (hl : ∀ x ∈ l, x ∈ filtered) :
    ∀ acc k v, CoSound filtered acc → (k, v) ∈ acc →
      (k, v) ∈ l.foldl (fun a m2 => coStep a m1 m2) acc := by
  induction l with
  | nil => intro acc k v _ hkv; simpa using hkv
  | cons x xs ih =>
    intro acc k v h hkv
    simp only [List.foldl_cons]
    exact ih (fun y hy => hl y (List.mem_cons_of_mem _ hy)) _ k v
      (coStep_sound _ _ _ _ hm1 (hl x (List.mem_cons_self _ _)) h)
      (coStep_keep _ hwf _ _ _ hm1 (hl x (List.mem_cons_self _ _)) h k v hkv)

/-- Auxiliary: the outer loop preserves the accumulator invariant. -/
theorem coFold_outer_sound (filtered : List WordMetadata)
    (l : List WordMetadata) (hl : ∀ x ∈ l, x ∈ filtered) :
    ∀ acc, CoSound filtered acc →
      CoSound filtered
        (l.foldl (fun a m1 => filtered.foldl (fun a2 m2 => coStep a2 m1 m2) a) acc) := by
  induction l with
  | nil => intro acc h; simpa using h
  | cons x xs ih =>
    intro acc h
    simp only [List.foldl_cons]
    exact ih (fun y hy => hl y (List.mem_cons_of_mem _ hy)) _
      (coFold_inner_sound filtered x (hl x (List.mem_cons_self _ _)) filtered
        (fun y hy => hy) acc h)

/-- Auxiliary: the outer loop keeps every present binding. -/
theorem coFold_outer_keep (filtered : List WordMetadata) (hwf : CacheWF filtered)
    (l : List WordMetadata) (hl : ∀ x ∈ l, x ∈ filtered) :
    ∀ acc k v, CoSound filtered acc → (k, v) ∈ acc →
      (k, v) ∈ l.foldl (fun a m1 => filtered.foldl (fun a2 m2 => coStep a2 m1 m2) a) acc := by
  induction l with
  | nil => intro acc k v _ hkv; simpa using hkv
  | cons x xs ih =>
    intro acc k v h hkv
    simp only [List.foldl_cons]
    have hx : x ∈ filtered := hl x (List.mem_cons_self _ _)
    exact ih (fun y hy => hl y (List.mem_cons_of_mem _ hy)) _ k v
      (coFold_inner_sound filtered x hx filtered (fun y hy => hy) acc h)
      (coFold_inner_keep filtered hwf x hx filtered (fun y hy => hy) acc k v h hkv)

/-- Auxiliary: the whole co-occurrence map satisfies the accumulator invariant. -/
theorem buildCoOccurrence_sound (filtered : List WordMetadata) :
    CoSound filtered (buildCoOccurrence filtered) := by
  unfold buildCoOccurrence
  exact coFold_outer_sound filtered filtered (fun x hx => hx) [] ⟨by simp, by simp⟩

/-- Auxiliary: the inner loop inserts the binding of any of its qualifying
partners. -/
theorem coFold_inner_insert (filtered : List WordMetadata) (hwf : CacheWF filtered)
    (m1 m2 : WordMetadata) (hm1 : m1 ∈ filtered)
    (hne : m1.word ≠ m2.word) (hcs : (common_sentences m1 m2).isEmpty = false)
    (l : List WordMetadata) (hl : ∀ x ∈ l, x ∈ filtered) :
    ∀ acc, m2 ∈ l → CoSound filtered acc →
      (pairKey m1.word m2.word, (common_sentences m1 m2).length)
        ∈ l.foldl (fun a m2' => coStep a m1 m2') acc := by
  induction l with
  | nil => intro acc hm2l _; simp at hm2l
  | cons x xs ih =>
    intro acc hm2l h
    simp only [List.foldl_cons]
    have hx : x ∈ filtered := hl x (List.mem_cons_self _ _)
    rcases List.mem_cons.1 hm2l with rfl | hm2l
    · have hmem : (pairKey m1.word m2.word, (common_sentences m1 m2).length)
          ∈ coStep acc m1 m2 := by
        unfold coStep
        rw [if_pos hne, if_neg (by simp [hcs])]
        exact self_mem_mapInsert _ _ _
      exact coFold_inner_keep filtered hwf m1 hm1 xs
        (fun y hy => hl y (List.mem_cons_of_mem _ hy)) _ _ _
        (coStep_sound _ _ _ _ hm1 hx h) hmem
    · exact ih (fun y hy => hl y (List.mem_cons_of_mem _ hy)) _ hm2l
        (coStep_sound _ _ _ _ hm1 hx h)

/-- Auxiliary: the outer loop inserts the binding of any qualifying pair it
reaches. -/
theorem coFold_outer_insert (filtered : List WordMetadata) (hwf : CacheWF filtered)
    (m1 m2 : WordMetadata) (hm2 : m2 ∈ filtered)
    (hne : m1.word ≠ m2.word) (hcs : (common_sentences m1 m2).isEmpty = false)
    (l : List WordMetadata) (hl : ∀ x ∈ l, x ∈ filtered) :
    ∀ acc, m1 ∈ l → CoSound filtered acc →
      (pairKey m1.word m2.word, (common_sentences m1 m2).length)
        ∈ l.foldl (fun a m1' => filtered.foldl (fun a2 m2' => coStep a2 m1' m2') a) acc := by
  induction l with
  | nil => intro acc hm1l _; simp at hm1l
  | cons x xs ih =>
    intro acc hm1l h
    simp only [List.foldl_cons]
    have hx : x ∈ filtered := hl x (List.mem_cons_self _ _)
    rcases List.mem_cons.1 hm1l with rfl | hm1l
    · have hmem := coFold_inner_insert filtered hwf m1 m2 hx hne hcs filtered
        (fun y hy => hy) acc hm2 h
      exact coFold_outer_keep filtered hwf xs
        (fun y hy => hl y (List.mem_cons_of_mem _ hy)) _ _ _
        (coFold_inner_sound filtered m1 hx filtered (fun y hy => hy) acc h) hmem
    · exact ih (fun y hy => hl y (List.mem_cons_of_mem _ hy)) _ hm1l
        (coFold_inner_sound filtered x hx filtered (fun y hy => hy) acc h)

/-- Auxiliary: the co-occurrence map contains the binding of every qualifying
pair. -/
theorem buildCoOccurrence_complete (filtered : List WordMetadata) (hwf : CacheWF filtered)
    (m1 m2 : WordMetadata) (hm1 : m1 ∈ filtered) (hm2 : m2 ∈ filtered)
    (hne : m1.word ≠ m2.word) (hcs : (common_sentences m1 m2).isEmpty = false) :
    (pairKey m1.word m2.word, (common_sentences m1 m2).length)
      ∈ buildCoOccurrence filtered := by
  unfold buildCoOccurrence
  exact coFold_outer_insert filtered hwf m1 m2 hm2 hne hcs filtered
    (fun x hx => hx) [] hm1 ⟨by simp, by simp⟩

end TextProc

namespace TextProc

/-! ## Claim C1, stage 4 - from the co-occurrence map to links -/

/-- The links one binding of the co_occurrence map contributes: one when its key
splits at the pipe into exactly two parts, none otherwise. -/
def linkOf (kv : Word × Nat) : List GraphLink :=
  match splitOnPred (fun c => decide (c = '|')) kv.1 with
  | [a, b] => [{ source := a, target := b, weight := kv.2 }]
  | _ => []

/-- Auxiliary: the link-creation loop flattens the per-binding link lists in
order. -/
theorem linksOfMap_eq_flatten (co : List (Word × Nat)) :
    linksOfMap co = (co.map linkOf).flatten := by
  have key : ∀ (co : List (Word × Nat)) (init : List GraphLink),
      co.foldl
        (fun ls kv =>
          match splitOnPred (fun c => decide (c = '|')) kv.1 with
          | [a, b] => ls ++ [{ source := a, target := b, weight := kv.2 }]
          | _ => ls) init
        = init ++ (co.map linkOf).flatten := by
    intro co
    induction co with
    | nil => intro init; simp
    | cons kv co ih =>
      intro init
      simp only [List.foldl_cons, List.map_cons, List.flatten_cons]
      rw [ih]
      rcases h : splitOnPred (fun c => decide (c = '|')) kv.1 with
          _ | ⟨a, _ | ⟨b, _ | ⟨c, t⟩⟩⟩ <;>
        simp [linkOf, h, List.append_assoc]
  rw [linksOfMap]
  simpa using key co []

/-- Auxiliary: membership in the produced link list. -/
theorem mem_linksOfMap (co : List (Word × Nat)) (l : GraphLink) :
    l ∈ linksOfMap co ↔ ∃ kv ∈ co, l ∈ linkOf kv := by
  rw [linksOfMap_eq_flatten, List.mem_flatten]
  constructor
  · rintro ⟨x, hx, hl⟩
    rcases List.mem_map.1 hx with ⟨kv, hkv, rfl⟩
    exact ⟨kv, hkv, hl⟩
  · rintro ⟨kv, hkv, hl⟩
    exact ⟨linkOf kv, List.mem_map.2 ⟨kv, hkv, rfl⟩, hl⟩

/-- Auxiliary: counting over the produced links is summing the per-binding counts. -/
theorem countP_linksOfMap (co : List (Word × Nat)) (p : GraphLink → Bool) :
    (linksOfMap co).countP p = (co.map (fun kv => (linkOf kv).countP p)).sum := by
  rw [linksOfMap_eq_flatten, List.countP_flatten, List.map_map]
  rfl

/-- Auxiliary: summing a key-indicator over a map with pairwise distinct keys gives
the key's presence indicator. -/
theorem sum_indicator_keys (co : List (Word × Nat)) (k : Word)
    (h : (co.map Prod.fst).Nodup) :
    (co.map (fun kv => if kv.1 = k then 1 else 0)).sum
      = if k ∈ co.map Prod.fst then 1 else 0 := by
  induction co with
  | nil => simp
  | cons kv co ih =>
    simp only [List.map_cons, List.sum_cons, List.mem_cons]
    have h1 : kv.1 ∉ co.map Prod.fst := (List.nodup_cons.1 h).1
    have h2 : (co.map Prod.fst).Nodup := (List.nodup_cons.1 h).2
    by_cases hk : kv.1 = k
    · subst hk
      rw [if_pos rfl, ih h2, if_neg h1, if_pos (Or.inl rfl)]
    · rw [if_neg hk, ih h2]
      by_cases hmem : k ∈ co.map Prod.fst
      · rw [if_pos hmem, if_pos (Or.inr hmem)]
      · rw [if_neg hmem, if_neg ?_]
        rintro (he | hm)
        · exact hk he.symm
        · exact hmem hm

end TextProc

namespace TextProc

/-- The link joins the two given words, in either orientation. -/
def linkTouches (l : GraphLink) (w1 w2 : Word) : Prop :=
  (l.source = w1 ∧ l.target = w2) ∨ (l.source = w2 ∧ l.target = w1)

instance (l : GraphLink) (w1 w2 : Word) : Decidable (linkTouches l w1 w2) := by
  unfold linkTouches
  infer_instance

/-- Auxiliary: shape of the link produced by a good binding, and how it relates to a
given qualifying pair. -/
theorem linkOf_char (filtered : List WordMetadata) (hwf : CacheWF filtered)
    (kv : Word × Nat) (hg : goodPair filtered kv.1 kv.2)
    (m1 m2 : WordMetadata) (hm1 : m1 ∈ filtered) (hm2 : m2 ∈ filtered) :
    ∃ a b, linkOf kv = [{ source := a, target := b, weight := kv.2 }]
      ∧ wordLt a b = true
      ∧ (((a = m1.word ∧ b = m2.word) ∨ (a = m2.word ∧ b = m1.word))
          ↔ kv.1 = pairKey m1.word m2.word)
      ∧ (kv.1 = pairKey m1.word m2.word →
          kv.2 = (m1.sentences.toFinset ∩ m2.sentences.toFinset).card
            ∧ (m1.sentences.toFinset ∩ m2.sentences.toFinset).Nonempty) := by
  obtain ⟨m3, h3, m4, h4, hne34, hcs34, hk, hv⟩ := hg
  have hp3 : '|' ∉ m3.word := hwf.2 m3 h3
  have hp4 : '|' ∉ m4.word := hwf.2 m4 h4
  have hp1 : '|' ∉ m1.word := hwf.2 m1 hm1
  have hp2 : '|' ∉ m2.word := hwf.2 m2 hm2
  obtain ⟨a, b, hsplit, hab, hlt⟩ := pairKey_parts m3.word m4.word hp3 hp4
  have hsplit' : splitOnPred (fun c => decide (c = '|')) kv.1 = [a, b] := by
    rw [hk]
    exact hsplit
  refine ⟨a, b, ?_, hlt hne34, ?_, ?_⟩
  · unfold linkOf
    rw [hsplit']
  · have hk_ab : kv.1 = pairKey a b := by
      rcases hab with ⟨rfl, rfl⟩ | ⟨rfl, rfl⟩
      · exact hk
      · rw [hk, pairKey_comm]
    constructor
    · intro hor
      rcases hor with ⟨rfl, rfl⟩ | ⟨rfl, rfl⟩
      · exact hk_ab
      · rw [hk_ab]
        exact pairKey_comm _ _
    · intro hkm
      have hinj := pairKey_inj m3.word m4.word m1.word m2.word hp3 hp4 hp1 hp2
        (hk.symm.trans hkm)
      rcases hab with ⟨rfl, rfl⟩ | ⟨rfl, rfl⟩ <;> rcases hinj with ⟨e1, e2⟩ | ⟨e1, e2⟩
      · exact Or.inl ⟨e1, e2⟩
      · exact Or.inr ⟨e1, e2⟩
      · exact Or.inr ⟨e2, e1⟩
      · exact Or.inl ⟨e2, e1⟩
  · intro hkm
    have hinj := pairKey_inj m3.word m4.word m1.word m2.word hp3 hp4 hp1 hp2
      (hk.symm.trans hkm)
    have hlen : (common_sentences m3 m4).length
        = (m1.sentences.toFinset ∩ m2.sentences.toFinset).card := by
      rcases hinj with ⟨e1, e2⟩ | ⟨e1, e2⟩
      · rw [word_inj filtered hwf m3 m1 h3 hm1 e1, word_inj filtered hwf m4 m2 h4 hm2 e2,
          common_sentences_length]
      · rw [word_inj filtered hwf m3 m2 h3 hm2 e1, word_inj filtered hwf m4 m1 h4 hm1 e2,
          common_sentences_length, Finset.inter_comm]
    refine ⟨by rw [hv, hlen], ?_⟩
    have hne0 : (common_sentences m3 m4).length ≠ 0 := by
      intro h0
      have hnil := List.length_eq_zero.1 h0
      simp [List.isEmpty_iff.2 hnil] at hcs34
    rw [hlen] at hne0
    exact Finset.card_pos.1 (Nat.pos_of_ne_zero hne0)

/-- C1: over any well-formed cache state, for every unordered pair of distinct
qualifying words, build_word_graph emits a link joining them exactly when their
sentence sets intersect; every such link carries the cardinality of the
intersection as weight (symmetric in the two words by Finset.inter_comm) and
is canonicalized with the lexicographically smaller word as source; and the
pair is joined by exactly one link in total, with no duplicate or reciprocal
link. -/
theorem claim_C1 (tp : TextProcessor) (min_frequency : Nat)
    (hwf : CacheWF tp.word_cache)
    (m1 m2 : WordMetadata)
    (hm1 : m1 ∈ tp.word_cache) (hm2 : m2 ∈ tp.word_cache)
    (hq1 : min_frequency ≤ m1.count) (hq2 : min_frequency ≤ m2.count)
    (hne : m1.word ≠ m2.word) :
    ((∃ l ∈ (build_word_graph tp min_frequency).links, linkTouches l m1.word m2.word)
        ↔ (m1.sentences.toFinset ∩ m2.sentences.toFinset).Nonempty)
    ∧ (∀ l ∈ (build_word_graph tp min_frequency).links, linkTouches l m1.word m2.word →
        l.weight = (m1.sentences.toFinset ∩ m2.sentences.toFinset).card
          ∧ wordLt l.source l.target = true)
    ∧ (build_word_graph tp min_frequency).links.countP
          (fun l => decide (linkTouches l m1.word m2.word))
        = if (m1.sentences.toFinset ∩ m2.sentences.toFinset).Nonempty then 1 else 0 := by
  have hlinks : (build_word_graph tp min_frequency).links
      = linksOfMap (buildCoOccurrence
          (tp.word_cache.filter (fun m => decide (min_frequency ≤ m.count)))) := rfl
  have hwf' : CacheWF (tp.word_cache.filter (fun m => decide (min_frequency ≤ m.count))) :=
    cacheWF_filter _ _ hwf
  have hm1f : m1 ∈ tp.word_cache.filter (fun m => decide (min_frequency ≤ m.count)) :=
    List.mem_filter.2 ⟨hm1, by simpa using hq1⟩
  have hm2f : m2 ∈ tp.word_cache.filter (fun m => decide (min_frequency ≤ m.count)) :=
    List.mem_filter.2 ⟨hm2, by simpa using hq2⟩
  have hsound := buildCoOccurrence_sound
    (tp.word_cache.filter (fun m => decide (min_frequency ≤ m.count)))
  have hiffkey := fun kv hkv => linkOf_char
    (tp.word_cache.filter (fun m => decide (min_frequency ≤ m.count))) hwf'
    kv (hsound.1 kv hkv) m1 m2 hm1f hm2f
  have hexists : (m1.sentences.toFinset ∩ m2.sentences.toFinset).Nonempty →
      (pairKey m1.word m2.word, (common_sentences m1 m2).length)
        ∈ buildCoOccurrence
            (tp.word_cache.filter (fun m => decide (min_frequency ≤ m.count))) := by
    intro hnon
    have hcs : (common_sentences m1 m2).isEmpty = false := by
      cases hb : (common_sentences m1 m2).isEmpty
      · rfl
      · exact absurd ((common_sentences_isEmpty_iff m1 m2).1 hb)
          (Finset.nonempty_iff_ne_empty.1 hnon)
    exact buildCoOccurrence_complete _ hwf' m1 m2 hm1f hm2f hne hcs
  refine ⟨⟨?_, ?_⟩, ?_, ?_⟩
  · rintro ⟨l, hl, ht⟩
    rw [hlinks] at hl
    rcases (mem_linksOfMap _ l).1 hl with ⟨kv, hkv, hlkv⟩
    obtain ⟨a, b, heq, hlt, hiff, himp⟩ := hiffkey kv hkv
    rw [heq, List.mem_singleton] at hlkv
    subst hlkv
    exact (himp (hiff.1 ht)).2
  · intro hnon
    have hco := hexists hnon
    obtain ⟨a, b, heq, hlt, hiff, himp⟩ := hiffkey _ hco
    refine ⟨{ source := a, target := b, weight := (common_sentences m1 m2).length }, ?_, ?_⟩
    · rw [hlinks]
      exact (mem_linksOfMap _ _).2 ⟨_, hco, by rw [heq]; exact List.mem_singleton.2 rfl⟩
    · exact hiff.2 rfl
  · intro l hl ht
    rw [hlinks] at hl
    rcases (mem_linksOfMap _ l).1 hl with ⟨kv, hkv, hlkv⟩
    obtain ⟨a, b, heq, hlt, hiff, himp⟩ := hiffkey kv hkv
    rw [heq, List.mem_singleton] at hlkv
    subst hlkv
    exact ⟨(himp (hiff.1 ht)).1, hlt⟩
  · rw [hlinks, countP_linksOfMap]
    have hmapeq : (buildCoOccurrence
          (tp.word_cache.filter (fun m => decide (min_frequency ≤ m.count)))).map
        (fun kv => (linkOf kv).countP (fun l => decide (linkTouches l m1.word m2.word)))
        = (buildCoOccurrence
            (tp.word_cache.filter (fun m => decide (min_frequency ≤ m.count)))).map
            (fun kv => if kv.1 = pairKey m1.word m2.word then 1 else 0) := by
      apply List.map_congr_left
      intro kv hkv
      obtain ⟨a, b, heq, hlt, hiff, himp⟩ := hiffkey kv hkv
      rw [heq]
      by_cases hkey : kv.1 = pairKey m1.word m2.word
      · rw [if_pos hkey]
        have ht : linkTouches { source := a, target := b, weight := kv.2 } m1.word m2.word :=
          hiff.2 hkey
        simp [List.countP_cons, ht]
      · rw [if_neg hkey]
        have ht : ¬linkTouches { source := a, target := b, weight := kv.2 } m1.word m2.word :=
          fun h => hkey (hiff.1 h)
        simp [List.countP_cons, ht]
    rw [hmapeq, sum_indicator_keys _ _ hsound.2]
    by_cases hnon : (m1.sentences.toFinset ∩ m2.sentences.toFinset).Nonempty
    · rw [if_pos hnon, if_pos (List.mem_map.2 ⟨_, hexists hnon, rfl⟩)]
    · rw [if_neg hnon, if_neg ?_]
      intro hmem
      rcases List.mem_map.1 hmem with ⟨kv, hkv, hfst⟩
      obtain ⟨a, b, heq, hlt, hiff, himp⟩ := hiffkey kv hkv
      exact hnon (himp hfst).2

/-- C1 witness: on the Scenario A cache with threshold 1, the words cat and sat
share exactly one sentence, and exactly one link joins them. -/
theorem claim_C1_witness :
    (build_word_graph (tokenize_generations ⟨[], 0⟩ scenarioA) 1).links.countP
        (fun l => decide (linkTouches l "cat".data "sat".data)) = 1 := by
  have h := (claim_C1 (tokenize_generations ⟨[], 0⟩ scenarioA) 1 (by decide)
      { word := "cat".data, count := 1, sentences := [0], word_indices := [1] }
      { word := "sat".data, count := 2, sentences := [0, 1], word_indices := [2, 2] }
      (by decide) (by decide) (by decide) (by decide) (by decide)).2.2
  exact h.trans (by decide)

end TextProc

namespace TextProc

/-! ## Reachable cache states are well-formed -/

/-- Auxiliary: a cache update leaves the word list unchanged or appends the new
word. -/
theorem words_cacheUpdate (cache : List WordMetadata) (w : Word) (si wi : Nat) :
    (cacheUpdate cache w si wi).map WordMetadata.word
      = if w ∈ cache.map WordMetadata.word then cache.map WordMetadata.word
        else cache.map WordMetadata.word ++ [w] := by
  induction cache with
  | nil => simp [cacheUpdate, updateMetadata, newMetadata]
  | cons m ms ih =>
    by_cases hm : m.word = w
    · simp [cacheUpdate, hm, updateMetadata]
    · simp only [cacheUpdate, if_neg hm, List.map_cons, ih, List.mem_cons]
      by_cases hw : w ∈ ms.map WordMetadata.word
      · rw [if_pos hw, if_pos (Or.inr hw)]
      · rw [if_neg hw, if_neg ?_]
        · simp
        · rintro (he | hmem)
          · exact hm he.symm
          · exact hw hmem

/-- Auxiliary: a cache update keeps the words pairwise distinct. -/
theorem nodup_cacheUpdate (cache : List WordMetadata) (w : Word) (si wi : Nat)
    (h : (cache.map WordMetadata.word).Nodup) :
    ((cacheUpdate cache w si wi).map WordMetadata.word).Nodup := by
  rw [words_cacheUpdate]
  by_cases hw : w ∈ cache.map WordMetadata.word
  · rwa [if_pos hw]
  · rw [if_neg hw]
    refine List.Nodup.append h (List.nodup_singleton w) ?_
    rw [List.disjoint_singleton]
    exact hw

/-- Auxiliary: the token loop keeps the words pairwise distinct. -/
theorem nodup_processTokens (ts : List Word) :
    ∀ (cache : List WordMetadata) (si wi : Nat), (cache.map WordMetadata.word).Nodup →
      ((processTokens cache ts si wi).map WordMetadata.word).Nodup := by
  induction ts with
  | nil => intro cache si wi h; simpa [processTokens] using h
  | cons w ws ih =>
    intro cache si wi h
    simp only [processTokens]
    apply ih
    by_cases hk : keepWord w
    · simpa only [hk, if_true] using nodup_cacheUpdate cache w si wi h
    · simpa only [hk, if_false] using h

/-- Auxiliary: the generation loop keeps the words pairwise distinct. -/
theorem nodup_processAll (gs : List Word) :
    ∀ (cache : List WordMetadata) (i : Nat), (cache.map WordMetadata.word).Nodup →
      ((processAll cache gs i).map WordMetadata.word).Nodup := by
  induction gs with
  | nil => intro cache i h; simpa [processAll] using h
  | cons g gs ih =>
    intro cache i h
    simp only [processAll]
    exact ih _ _ (nodup_processTokens _ _ _ _ h)

/-- Auxiliary: tokens contain no pipe character (every token character is
alphabetic). -/
theorem tokens_pipeFree (g : Word) : ∀ t ∈ tokenize_sentence g, '|' ∉ t := by
  intro t ht hc
  have ht' := List.mem_filter.1 ht
  have h := mem_splitOnPred _ _ t ht'.1 '|' hc
  rcases List.mem_map.1 h.2 with ⟨d, _, hd⟩
  have halpha := normalizeChar_alpha d (by rw [hd]; decide)
  rw [hd] at halpha
  exact absurd halpha (by decide)

/-- Auxiliary: the token loop keeps the cached words pipe-free when every processed
token is pipe-free. -/
theorem pipeFree_processTokens (ts : List Word) :
    ∀ (cache : List WordMetadata) (si wi : Nat), (∀ t ∈ ts, '|' ∉ t) →
      (∀ m ∈ cache, '|' ∉ m.word) →
      ∀ m ∈ processTokens cache ts si wi, '|' ∉ m.word := by
  induction ts with
  | nil => intro cache si wi _ h; simpa [processTokens] using h
  | cons w ws ih =>
    intro cache si wi hts h
    simp only [processTokens]
    apply ih _ _ _ (fun t h' => hts t (List.mem_cons_of_mem _ h'))
    by_cases hk : keepWord w
    · simp only [hk, if_true]
      refine forall_cacheUpdate _ cache w si wi h ?_ ?_
      · intro m hm
        simpa [updateMetadata] using hm
      · simpa [updateMetadata, newMetadata] using hts w (List.mem_cons_self _ _)
    · simpa only [hk, if_false] using h

/-- Auxiliary: the generation loop keeps the cached words pipe-free. -/
theorem pipeFree_processAll (gs : List Word) :
    ∀ (cache : List WordMetadata) (i : Nat), (∀ m ∈ cache, '|' ∉ m.word) →
      ∀ m ∈ processAll cache gs i, '|' ∉ m.word := by
  induction gs with
  | nil => intro cache i h; simpa [processAll] using h
  | cons g gs ih =>
    intro cache i h
    simp only [processAll]
    exact ih _ _ (pipeFree_processTokens _ _ _ _ (tokens_pipeFree g) h)

/-- Every cache state an ingestion produces is well-formed, so the hypotheses of
the co-occurrence characterization hold for every reachable processor state. -/
theorem cacheWF_tokenize_generations (tp : TextProcessor) (gens : List (Option Word)) :
    CacheWF (tokenize_generations tp gens).word_cache :=
  ⟨nodup_processAll (stringEntries gens) [] 0 (by simp),
    pipeFree_processAll (stringEntries gens) [] 0 (by simp)⟩

end TextProc

namespace TextProc

/-- C2 witness: the cat-sat link present in the Scenario B graph is not a cat-dog
link. -/
theorem claim_C2_witness :
    ¬((("cat".data : Word) = "cat".data ∧ ("sat".data : Word) = "dog".data)
      ∨ (("cat".data : Word) = "dog".data ∧ ("sat".data : Word) = "cat".data)) :=
  claim_C2.2.2 { source := "cat".data, target := "sat".data, weight := 1 } (by decide)

end TextProc
